import Mathlib

set_option maxHeartbeats 1000000

/-!
Verification development for the yaml-path-finder tool
(src/tools/yaml-path-finder/yaml-path-finder.vue).

The tool parses a YAML document into a generic tree, enumerates all dotted
key paths (getDeepKeys), resolves a query through three tiers
(exact, suffix, prefix) and renders a character diff between the matched
path and a comparison string.  The script below is a shallow embedding of
that code: trees become an inductive type, the JavaScript string builtins
used by the code (split, join, startsWith, endsWith) are modelled on the
character lists underlying Lean strings, and the reactive state updates
become explicit state passing.
-/

namespace YamlPathFinder

/-- Scalar leaf values as produced by the YAML parser: strings, numerals,
booleans and null.  Numeric scalars are modelled as integers; the claims
under study only ever distinguish zero from nonzero numbers. -/
inductive Scalar where
  | str (s : String)
  | num (n : Int)
  | bool (b : Bool)
  | null
deriving DecidableEq, Repr

/-- A parsed document tree: a node is a scalar, a sequence of nodes, or a
mapping from string keys to nodes.  Mapping entries are listed in the order
a JavaScript for..in loop enumerates them. -/
inductive Node where
  | scalar (v : Scalar)
  | arr (elems : List Node)
  | obj (entries : List (String × Node))
deriving Repr

/-- Model of the JavaScript test typeof x === 'object': true for mappings,
for sequences (JavaScript arrays are objects) and for null (a well-known
JavaScript quirk), false for all other scalars. -/
def jsIsObject : Node → Bool
  | .obj _ => true
  | .arr _ => true
  | .scalar .null => true
  | _ => false

/-- Entries a JavaScript for..in loop enumerates over an array whose first
element sits at index i: canonical decimal index strings paired with the
elements. -/
def arrEntriesFrom (i : Nat) : List Node → List (String × Node)
  | [] => []
  | v :: rest => (Nat.repr i, v) :: arrEntriesFrom (i + 1) rest

/-- Own enumerable entries of a node in for..in order: the mapping entries
of a mapping, the decimal-indexed elements of a sequence, nothing for
scalars (including null). -/
def entriesOf : Node → List (String × Node)
  | .obj es => es
  | .arr elems => arrEntriesFrom 0 elems
  | .scalar _ => []

mutual
/-- Embedding of getDeepKeys from yaml-path-finder.vue: for every enumerable
key of the node, push the key itself; when the stored value passes the
typeof-object test, recurse and additionally push key ++ "." ++ subkey for
every subkey the recursion yields. -/
def getDeepKeys : Node → List String
  | .obj es => deepKeysOfEntries es
  | .arr elems => deepKeysOfElems 0 elems
  | .scalar _ => []

/-- The for..in loop body of getDeepKeys over the entries of a mapping. -/
def deepKeysOfEntries : List (String × Node) → List String
  | [] => []
  | (k, v) :: rest =>
      (k :: (if jsIsObject v then (getDeepKeys v).map (fun s => k ++ "." ++ s) else [])) ++
        deepKeysOfEntries rest

/-- The for..in loop body of getDeepKeys over the elements of a sequence,
whose first element sits at index i. -/
def deepKeysOfElems : Nat → List Node → List String
  | _, [] => []
  | i, v :: rest =>
      (Nat.repr i ::
          (if jsIsObject v then (getDeepKeys v).map (fun s => Nat.repr i ++ "." ++ s) else [])) ++
        deepKeysOfElems (i + 1) rest
end

/-- The stretch of indexer output contributed by one enumerable entry: the
key itself, then the dot-prefixed recursive paths when the value is
object-typed. -/
def keyBlock (e : String × Node) : List String :=
  e.1 :: (if jsIsObject e.2 then (getDeepKeys e.2).map (fun s => e.1 ++ "." ++ s) else [])

theorem deepKeysOfEntries_eq_flatMap (es : List (String × Node)) :
    deepKeysOfEntries es = es.flatMap keyBlock := by
  induction es with
  | nil => rfl
  | cons e rest ih =>
      obtain ⟨k, v⟩ := e
      simp [deepKeysOfEntries, keyBlock, ih]

theorem deepKeysOfElems_eq_flatMap (i : Nat) (elems : List Node) :
    deepKeysOfElems i elems = (arrEntriesFrom i elems).flatMap keyBlock := by
  induction elems generalizing i with
  | nil => rfl
  | cons v rest ih =>
      simp [deepKeysOfElems, arrEntriesFrom, keyBlock, ih]

theorem getDeepKeys_eq_flatMap (n : Node) :
    getDeepKeys n = (entriesOf n).flatMap keyBlock := by
  cases n with
  | scalar v => rfl
  | arr elems => simpa [getDeepKeys, entriesOf] using deepKeysOfElems_eq_flatMap 0 elems
  | obj es => simpa [getDeepKeys, entriesOf] using deepKeysOfEntries_eq_flatMap es

theorem mem_of_mem_arrEntriesFrom {i : Nat} {elems : List Node} {k : String} {v : Node}
    (h : (k, v) ∈ arrEntriesFrom i elems) : v ∈ elems := by
  induction elems generalizing i with
  | nil => simp [arrEntriesFrom] at h
  | cons w rest ih =>
      simp only [arrEntriesFrom, List.mem_cons, Prod.mk.injEq] at h
      rcases h with ⟨_, rfl⟩ | h
      · exact List.mem_cons_self _ _
      · exact List.mem_cons_of_mem _ (ih h)

theorem sizeOf_lt_of_mem_entriesOf {k : String} {v n : Node}
    (h : (k, v) ∈ entriesOf n) : sizeOf v < sizeOf n := by
  cases n with
  | scalar s => simp [entriesOf] at h
  | arr elems =>
      have hv : v ∈ elems := mem_of_mem_arrEntriesFrom h
      have := List.sizeOf_lt_of_mem hv
      simp only [Node.arr.sizeOf_spec]
      omega
  | obj es =>
      simp only [entriesOf] at h
      have := List.sizeOf_lt_of_mem h
      simp only [Prod.mk.sizeOf_spec] at this
      simp only [Node.obj.sizeOf_spec]
      omega

/-- Strong induction over nodes, following the enumerable-entry structure
that every traversal in the tool uses. -/
theorem node_ind (motive : Node → Prop)
    (step : ∀ n, (∀ k v, (k, v) ∈ entriesOf n → motive v) → motive n) :
    ∀ n, motive n
  | n => step n (fun _ v h => node_ind motive step v)
termination_by n => sizeOf n
decreasing_by exact sizeOf_lt_of_mem_entriesOf h

mutual
/-- Instrumented variant of getDeepKeys that pairs every emitted path with
the node the traversal stood at when it emitted the path.  Its first
projection is getDeepKeys (theorem pathsWithValues_map_fst below). -/
def pathsWithValues : Node → List (String × Node)
  | .obj es => pwvOfEntries es
  | .arr elems => pwvOfElems 0 elems
  | .scalar _ => []

/-- The for..in loop body of pathsWithValues over mapping entries. -/
def pwvOfEntries : List (String × Node) → List (String × Node)
  | [] => []
  | (k, v) :: rest =>
      ((k, v) ::
          (if jsIsObject v then (pathsWithValues v).map (fun p => (k ++ "." ++ p.1, p.2)) else [])) ++
        pwvOfEntries rest

/-- The for..in loop body of pathsWithValues over sequence elements. -/
def pwvOfElems : Nat → List Node → List (String × Node)
  | _, [] => []
  | i, v :: rest =>
      ((Nat.repr i, v) ::
          (if jsIsObject v then
            (pathsWithValues v).map (fun p => (Nat.repr i ++ "." ++ p.1, p.2))
          else [])) ++
        pwvOfElems (i + 1) rest
end

/-- The stretch of pathsWithValues output contributed by one entry. -/
def pwvBlock (e : String × Node) : List (String × Node) :=
  (e.1, e.2) ::
    (if jsIsObject e.2 then (pathsWithValues e.2).map (fun p => (e.1 ++ "." ++ p.1, p.2)) else [])

/-- Model of the JavaScript string split on a single dot, on the character
list underlying a string: splitting the empty list yields one empty group,
and every dot opens a new group. -/
def splitCharList : List Char → List (List Char)
  | [] => [[]]
  | c :: rest =>
      if c = '.' then [] :: splitCharList rest
      else
        match splitCharList rest with
        | [] => [[c]]
        | g :: gs => (c :: g) :: gs

/-- Model of the JavaScript builtin s.split('.') used by searchResult. -/
def splitDot (s : String) : List String :=
  (splitCharList s.data).map String.mk

/-- Dual of splitCharList: interleave a dot between the groups. -/
def joinCharList : List (List Char) → List Char
  | [] => []
  | [g] => g
  | g :: g2 :: gs => g ++ '.' :: joinCharList (g2 :: gs)

/-- Model of the JavaScript builtin parts.join('.') used by exactMatch. -/
def joinDot (parts : List String) : String :=
  String.mk (joinCharList (parts.map String.data))

/-- Model of the JavaScript builtin s.startsWith(q) used by prefixMatch. -/
def jsStartsWith (s q : String) : Bool :=
  q.data.isPrefixOf s.data

/-- Model of the JavaScript builtin s.endsWith(q) used by suffixMatch. -/
def jsEndsWith (s q : String) : Bool :=
  q.data.isSuffixOf s.data

/-- First-match association lookup, the semantics of JavaScript property
access on an object literal with the given enumeration entries. -/
def jsLookup (k : String) : List (String × Node) → Option Node
  | [] => none
  | (k2, v) :: rest => if k2 = k then some v else jsLookup k rest

/-- Model of JavaScript property access n[k] on a parsed document node:
lookup among the own enumerable entries, undefined (none) otherwise.
Exotic accesses (array length, character indexing on strings) are never
reached by the resolver on enumerated paths and are not modelled. -/
def getProp (n : Node) (k : String) : Option Node :=
  jsLookup k (entriesOf n)

/-- Model of the JavaScript loose-equality test x == null: true for both
null and undefined. -/
def jsIsNullish : Option Node → Bool
  | none => true
  | some (.scalar .null) => true
  | _ => false

/-- Model of JavaScript truthiness of a value that may be undefined:
undefined, null, the empty string, zero and false are falsy, everything
else (including every object and array) is truthy. -/
def jsTruthy : Option Node → Bool
  | none => false
  | some (.scalar .null) => false
  | some (.scalar (.str s)) => !(s == "")
  | some (.scalar (.num n)) => !(n == 0)
  | some (.scalar (.bool b)) => b
  | some (.arr _) => true
  | some (.obj _) => true

/-- The loop of underscore's deepGet: before each access, bail out with
undefined when the current value is nullish, otherwise step through the
property named by the next path segment. -/
def deepGetLoop : Option Node → List String → Option Node
  | cur, [] => cur
  | cur, k :: rest =>
      if jsIsNullish cur then none
      else
        match cur with
        | some n => deepGetLoop (getProp n k) rest
        | none => none

/-- Embedding of underscore's propertyOf applied to a path array: nullish
receivers and empty paths give undefined, otherwise deepGet walks the
tree. -/
def propertyOf_get (n : Node) (path : List String) : Option Node :=
  if jsIsNullish (some n) then none
  else if path.isEmpty then none
  else deepGetLoop (some n) path

/-- Escape of one character inside a JSON string literal. -/
def escapeJsonChar (c : Char) : List Char :=
  if c = '"' then ['\\', '"']
  else if c = '\\' then ['\\', '\\']
  else if c = '\n' then ['\\', 'n']
  else if c = '\t' then ['\\', 't']
  else if c = '\r' then ['\\', 'r']
  else [c]

/-- A JSON string literal for s: quoted and escaped. -/
def quoteJson (s : String) : String :=
  String.mk ('"' :: (s.data.flatMap escapeJsonChar ++ ['"']))

/-- A run of ind space characters. -/
def indentSpaces (ind : Nat) : String :=
  String.mk (List.replicate ind ' ')

mutual
/-- Model of JSON.stringify(v, null, 2) as called by exactMatch: two-space
indented pretty printing, ind being the indentation of the surrounding
context. -/
def jsonStringify : Node → Nat → String
  | .scalar (.str s), _ => quoteJson s
  | .scalar (.num n), _ => toString n
  | .scalar (.bool b), _ => if b then "true" else "false"
  | .scalar .null, _ => "null"
  | .arr [], _ => "[]"
  | .arr (v :: rest), ind =>
      "[\n" ++ jsonElems (v :: rest) (ind + 2) ++ "\n" ++ indentSpaces ind ++ "]"
  | .obj [], _ => "\x7b\x7d"
  | .obj (e :: rest), ind =>
      "\x7b\n" ++ jsonEntries (e :: rest) (ind + 2) ++ "\n" ++ indentSpaces ind ++ "\x7d"

/-- Comma-and-newline separated serialization of array elements. -/
def jsonElems : List Node → Nat → String
  | [], _ => ""
  | [v], ind => indentSpaces ind ++ jsonStringify v ind
  | v :: v2 :: rest, ind =>
      indentSpaces ind ++ jsonStringify v ind ++ ",\n" ++ jsonElems (v2 :: rest) ind

/-- Comma-and-newline separated serialization of object entries. -/
def jsonEntries : List (String × Node) → Nat → String
  | [], _ => ""
  | [(k, v)], ind => indentSpaces ind ++ quoteJson k ++ ": " ++ jsonStringify v ind
  | (k, v) :: e2 :: rest, ind =>
      indentSpaces ind ++ quoteJson k ++ ": " ++ jsonStringify v ind ++ ",\n" ++
        jsonEntries (e2 :: rest) ind
end

/-- Result record of exactMatch. -/
structure ExactFound where
  path : String
  value : String
deriving DecidableEq, Repr

/-- Embedding of exactMatch from yaml-path-finder.vue: look the split path
up with propertyOf, and only when the found value is truthy report the
joined path together with its two-space pretty-printed serialization. -/
def exactMatch (tree : Node) (parts : List String) : Option ExactFound :=
  match propertyOf_get tree parts with
  | some v =>
      if jsTruthy (some v) then some ⟨joinDot parts, jsonStringify v 0⟩ else none
  | none => none

/-- Result record of prefixMatch and suffixMatch. -/
structure MatchKeys where
  count : Nat
  keys : List String
deriving DecidableEq, Repr

/-- Embedding of prefixMatch from yaml-path-finder.vue: the indexed keys
that start with the query, with their count, or null when there are none. -/
def prefixMatch (keys : List String) (value : String) : Option MatchKeys :=
  let foundKeys := keys.filter (fun key => jsStartsWith key value)
  if foundKeys.length = 0 then none
  else some ⟨foundKeys.length, foundKeys⟩

/-- Embedding of suffixMatch from yaml-path-finder.vue: the indexed keys
that end with the query, with their count, or null when there are none. -/
def suffixMatch (keys : List String) (value : String) : Option MatchKeys :=
  let foundKeys := keys.filter (fun key => jsEndsWith key value)
  if foundKeys.length = 0 then none
  else some ⟨foundKeys.length, foundKeys⟩

/-- The tagged search result variants of the tool. -/
inductive SearchResult where
  | Exact (path value : String)
  | SuffixMatch (count : Nat) (keys : List String)
  | PrefixMatch (count : Nat) (keys : List String)
  | NoMatch
deriving DecidableEq, Repr

/-- Embedding of the searchResult computed value: nothing for an empty
query, otherwise the exact, suffix and prefix tiers are consulted in that
order and the first hit is returned, with NoMatch as the final fallback. -/
def searchResult (tree : Node) (keys : List String) (search : String) : Option SearchResult :=
  if search = "" then none
  else
    match exactMatch tree (splitDot search) with
    | some e => some (.Exact e.path e.value)
    | none =>
        match suffixMatch keys search with
        | some s => some (.SuffixMatch s.count s.keys)
        | none =>
            match prefixMatch keys search with
            | some p => some (.PrefixMatch p.count p.keys)
            | none => some .NoMatch

/-- The suffix-then-prefix-then-NoMatch tail of searchResult, used to state
that a query falls through the exact tier. -/
def fallbackResult (keys : List String) (search : String) : SearchResult :=
  match suffixMatch keys search with
  | some s => .SuffixMatch s.count s.keys
  | none =>
      match prefixMatch keys search with
      | some p => .PrefixMatch p.count p.keys
      | none => .NoMatch

/-- The reactive state the tool keeps: the last successfully parsed tree,
its key index, and the diagnostics logged so far (console.error calls). -/
structure ToolState where
  parsedYaml : Node
  keys : List String
  errorLog : List String

/-- Embedding of updateYaml: an empty input is ignored outright; otherwise
the input is parsed, on success tree and key index are replaced wholesale,
and on failure a diagnostic is logged while tree and index stay as they
were.  The parser itself is the external YAML library, passed here as a
function returning ok or error. -/
def updateYaml (parse : String → Except String Node) (yamlInput : String)
    (st : ToolState) : ToolState :=
  if yamlInput = "" then st
  else
    match parse yamlInput with
    | .ok loadedYaml => { st with parsedYaml := loadedYaml, keys := getDeepKeys loadedYaml }
    | .error e => { st with errorLog := st.errorLog ++ ["Failed to parse YAML: " ++ e] }

/-- One segment of the character diff produced by the external diffChars
library: a run of text marked added, removed, or neither. -/
structure DiffSeg where
  added : Bool
  removed : Bool
  value : String
deriving DecidableEq, Repr

/-- The span rendered for one diff segment, as in renderComparison. -/
def renderSeg (s : DiffSeg) : String :=
  if s.removed then "<span class=\"text-error\">" ++ s.value ++ "</span>"
  else if s.added then "<span class=\"text-success\">" ++ s.value ++ "</span>"
  else "<span>" ++ s.value ++ "</span>"

/-- The distinguished congratulation markup renderComparison returns when
the two strings are equal. -/
def matchMessage : String :=
  "<span class=\"text-success\">Values match! 🎉</span>"

/-- Embedding of renderComparison: short-circuit to the match message when
the argument equals the comparison string, otherwise render the segments
the external diffChars library produces and concatenate them.  diffChars is
passed as a function, the way the code imports it. -/
def renderComparison (diffChars : String → String → List DiffSeg)
    (foundValue comparison : String) : String :=
  if foundValue = comparison then matchMessage
  else String.join ((diffChars foundValue comparison).map renderSeg)

/-- Embedding of the template around renderComparison: the diff area is
rendered only for an exact result, and the template passes
searchResult.path as the argument. -/
def renderedComparisonHtml (diffChars : String → String → List DiffSeg)
    (tree : Node) (keys : List String) (search comparison : String) : Option String :=
  match searchResult tree keys search with
  | some (.Exact path _) => some (renderComparison diffChars path comparison)
  | _ => none

/-- Modelled from the spec: section 4.4 states the rendered diff is computed
between the found value's serialized text and the user's comparison string.
This definition follows those words; it exists only to be compared with
renderedComparisonHtml, which embeds the code. -/
def specComparisonHtml (diffChars : String → String → List DiffSeg)
    (tree : Node) (keys : List String) (search comparison : String) : Option String :=
  match searchResult tree keys search with
  | some (.Exact _ value) => some (renderComparison diffChars value comparison)
  | _ => none

mutual
/-- Modelled from the spec: the mapping-reachable dotted paths of section
4.2, descending into mapping children only, with scalars and sequences as
leaves.  This definition follows the spec's words; it exists only to be
compared with getDeepKeys, which embeds the code. -/
def mappingPaths : Node → List String
  | .obj es => mappingPathsOfEntries es
  | _ => []

/-- Entry loop of mappingPaths. -/
def mappingPathsOfEntries : List (String × Node) → List String
  | [] => []
  | (k, v) :: rest =>
      (k :: (mappingPaths v).map (fun s => k ++ "." ++ s)) ++ mappingPathsOfEntries rest
end

/-- The parsed form of the sample document shipped with the tool
(defaultYaml trimmed): hello.from.your.favourite.yaml.tool holding the
string "👋". -/
def parsedDefaultYaml : Node :=
  .obj [("hello", .obj [("from", .obj [("your", .obj [("favourite",
    .obj [("yaml", .obj [("tool", .scalar (.str "👋"))])])])])])]

/-- True when the string contains a dot, the path separator. -/
def keyHasDot (k : String) : Bool :=
  k.data.contains '.'

/-- Executable duplicate-freedom check for a list of strings. -/
def nodupStr : List String → Bool
  | [] => true
  | k :: rest => !(rest.contains k) && nodupStr rest

mutual
/-- Well-formedness of a document tree as the JavaScript runtime guarantees
it: within each node the enumerable keys are pairwise distinct, and -- the
restriction the dotted-path encoding needs -- no key contains a dot. -/
def wfKeys : Node → Bool
  | .obj es => nodupStr (es.map Prod.fst) && wfEntriesKeys es
  | .arr elems =>
      nodupStr ((arrEntriesFrom 0 elems).map Prod.fst) && wfElemsKeys 0 elems
  | .scalar _ => true

/-- Entry loop of wfKeys over mapping entries. -/
def wfEntriesKeys : List (String × Node) → Bool
  | [] => true
  | (k, v) :: rest => !keyHasDot k && wfKeys v && wfEntriesKeys rest

/-- Entry loop of wfKeys over sequence elements, checking the decimal index
strings it will use as keys. -/
def wfElemsKeys : Nat → List Node → Bool
  | _, [] => true
  | i, v :: rest => !keyHasDot (Nat.repr i) && wfKeys v && wfElemsKeys (i + 1) rest
end

mutual
/-- True when every enumerable key in the tree is a nonempty string; an
empty key would collide with the empty-query guard of searchResult. -/
def keysNonempty : Node → Bool
  | .obj es => neEntries es
  | .arr elems => neElems 0 elems
  | .scalar _ => true

/-- Entry loop of keysNonempty over mapping entries. -/
def neEntries : List (String × Node) → Bool
  | [] => true
  | (k, v) :: rest => !(k == "") && keysNonempty v && neEntries rest

/-- Entry loop of keysNonempty over sequence elements. -/
def neElems : Nat → List Node → Bool
  | _, [] => true
  | i, v :: rest => !(Nat.repr i == "") && keysNonempty v && neElems (i + 1) rest
end

/-- The stretch of mappingPaths output contributed by one mapping entry. -/
def mpBlock (e : String × Node) : List String :=
  e.1 :: (mappingPaths e.2).map (fun s => e.1 ++ "." ++ s)

/-- Number of dot-separated segments of a path string. -/
def pathDepth (P : String) : Nat :=
  (splitDot P).length

/-- The ancestor path one segment shorter: all segments but the last,
joined back with dots. -/
def parentPath (P : String) : String :=
  joinDot ((splitDot P).dropLast)

/-- a occurs strictly before b in the list l: l splits into a part
containing a followed by a part containing b. -/
def precedesIn (l : List String) (a b : String) : Prop :=
  ∃ l₁ l₂, l = l₁ ++ l₂ ∧ a ∈ l₁ ∧ b ∈ l₂

theorem splitCharList_ne_nil (l : List Char) : splitCharList l ≠ [] := by
  cases l with
  | nil => simp [splitCharList]
  | cons c rest =>
      by_cases hc : c = '.'
      · simp [splitCharList, hc]
      · simp only [splitCharList, if_neg hc]
        cases h : splitCharList rest <;> simp

theorem joinCharList_splitCharList (l : List Char) :
    joinCharList (splitCharList l) = l := by
  induction l with
  | nil => rfl
  | cons c rest ih =>
      by_cases hc : c = '.'
      · subst hc
        simp only [splitCharList, if_pos rfl]
        cases h : splitCharList rest with
        | nil => exact absurd h (splitCharList_ne_nil rest)
        | cons g gs =>
            rw [h] at ih
            simp only [joinCharList, List.nil_append]
            rw [ih]
      · simp only [splitCharList, if_neg hc]
        cases h : splitCharList rest with
        | nil => exact absurd h (splitCharList_ne_nil rest)
        | cons g gs =>
            rw [h] at ih
            cases gs with
            | nil =>
                simp only [joinCharList] at ih ⊢
                rw [ih]
            | cons g2 gs2 =>
                simp only [joinCharList] at ih ⊢
                simp [ih]

theorem splitCharList_noDot {l : List Char} (h : '.' ∉ l) : splitCharList l = [l] := by
  induction l with
  | nil => rfl
  | cons c rest ih =>
      have hc : ¬(c = '.') := fun he => h (by rw [he]; exact List.mem_cons_self _ _)
      have hr : '.' ∉ rest := fun hm => h (List.mem_cons_of_mem c hm)
      simp only [splitCharList, if_neg hc, ih hr]

theorem splitCharList_append {k : List Char} (rest : List Char) (h : '.' ∉ k) :
    splitCharList (k ++ '.' :: rest) = k :: splitCharList rest := by
  induction k with
  | nil => simp [splitCharList]
  | cons c kt ih =>
      have hc : ¬(c = '.') := fun he => h (by rw [he]; exact List.mem_cons_self _ _)
      have hk : '.' ∉ kt := fun hm => h (List.mem_cons_of_mem c hm)
      simp only [List.cons_append, splitCharList, if_neg hc, List.append_eq, ih hk]

theorem mk_data (s : String) : String.mk s.data = s := rfl

theorem keyHasDot_false_iff {k : String} : keyHasDot k = false ↔ '.' ∉ k.data := by
  simp [keyHasDot]

theorem dotData (k q : String) : (k ++ "." ++ q).data = k.data ++ '.' :: q.data := by
  simp [String.data_append]

theorem splitDot_ne_nil (s : String) : splitDot s ≠ [] := by
  simp [splitDot, splitCharList_ne_nil]

theorem splitDot_of_noDot {k : String} (h : keyHasDot k = false) : splitDot k = [k] := by
  have hd : '.' ∉ k.data := keyHasDot_false_iff.mp h
  simp [splitDot, splitCharList_noDot hd, mk_data]

theorem splitDot_dotted {k : String} (q : String) (h : keyHasDot k = false) :
    splitDot (k ++ "." ++ q) = k :: splitDot q := by
  have hd : '.' ∉ k.data := keyHasDot_false_iff.mp h
  have : (k ++ "." ++ q).data = k.data ++ '.' :: q.data := dotData k q
  simp only [splitDot, this, splitCharList_append _ hd, List.map_cons, mk_data]

theorem joinDot_splitDot (s : String) : joinDot (splitDot s) = s := by
  have hcomp : (String.data ∘ String.mk) = (id : List Char → List Char) := rfl
  simp only [joinDot, splitDot, List.map_map, hcomp, List.map_id,
    joinCharList_splitCharList, mk_data]

theorem joinDot_singleton (k : String) : joinDot [k] = k := rfl

theorem joinDot_cons_cons (k r : String) (rs : List String) :
    joinDot (k :: r :: rs) = k ++ "." ++ joinDot (r :: rs) := by
  apply String.ext
  simp only [joinDot, List.map_cons, joinCharList, dotData, mk_data]

theorem pwvOfEntries_eq_flatMap (es : List (String × Node)) :
    pwvOfEntries es = es.flatMap pwvBlock := by
  induction es with
  | nil => rfl
  | cons e rest ih =>
      obtain ⟨k, v⟩ := e
      simp [pwvOfEntries, pwvBlock, ih]

theorem pwvOfElems_eq_flatMap (i : Nat) (elems : List Node) :
    pwvOfElems i elems = (arrEntriesFrom i elems).flatMap pwvBlock := by
  induction elems generalizing i with
  | nil => rfl
  | cons v rest ih =>
      simp [pwvOfElems, arrEntriesFrom, pwvBlock, ih]

theorem pathsWithValues_eq_flatMap (n : Node) :
    pathsWithValues n = (entriesOf n).flatMap pwvBlock := by
  cases n with
  | scalar v => rfl
  | arr elems => simpa [pathsWithValues, entriesOf] using pwvOfElems_eq_flatMap 0 elems
  | obj es => simpa [pathsWithValues, entriesOf] using pwvOfEntries_eq_flatMap es

theorem map_fst_pwv_flatMap (es : List (String × Node))
    (h : ∀ k v, (k, v) ∈ es → (pathsWithValues v).map Prod.fst = getDeepKeys v) :
    (es.flatMap pwvBlock).map Prod.fst = es.flatMap keyBlock := by
  induction es with
  | nil => rfl
  | cons e rest ih =>
      obtain ⟨k, v⟩ := e
      simp only [List.flatMap_cons, List.map_append]
      rw [ih (fun k' v' hm => h k' v' (List.mem_cons_of_mem _ hm))]
      congr 1
      simp only [pwvBlock, keyBlock, List.map_cons]
      congr 1
      by_cases hv : jsIsObject v
      · simp only [if_pos hv, List.map_map]
        rw [← h k v (List.mem_cons_self _ _), List.map_map]
        rfl
      · simp [hv]

theorem pathsWithValues_map_fst (n : Node) :
    (pathsWithValues n).map Prod.fst = getDeepKeys n := by
  induction n using node_ind with
  | step n ih =>
      rw [pathsWithValues_eq_flatMap, getDeepKeys_eq_flatMap]
      exact map_fst_pwv_flatMap (entriesOf n) ih

theorem nodupStr_nodup : ∀ {l : List String}, nodupStr l = true → l.Nodup := by
  intro l
  induction l with
  | nil => intro _; exact List.nodup_nil
  | cons k rest ih =>
      intro h
      simp only [nodupStr, Bool.and_eq_true, Bool.not_eq_true'] at h
      refine List.nodup_cons.mpr ⟨?_, ih h.2⟩
      intro hm
      have hc : rest.contains k = true := List.elem_iff.mpr hm
      rw [h.1] at hc
      cases hc

theorem wfEntriesKeys_entry : ∀ {es : List (String × Node)} {k : String} {v : Node},
    wfEntriesKeys es = true → (k, v) ∈ es → keyHasDot k = false ∧ wfKeys v = true := by
  intro es
  induction es with
  | nil => intro k v _ hm; simp at hm
  | cons e rest ih =>
      intro k v hwf hm
      obtain ⟨k2, v2⟩ := e
      simp only [wfEntriesKeys, Bool.and_eq_true, Bool.not_eq_true'] at hwf
      obtain ⟨⟨hdot, hw⟩, hrest⟩ := hwf
      simp only [List.mem_cons, Prod.mk.injEq] at hm
      rcases hm with ⟨hk, hv⟩ | hm
      · subst hk; subst hv; exact ⟨hdot, hw⟩
      · exact ih hrest hm

theorem wfElemsKeys_entry : ∀ {elems : List Node} {i : Nat} {k : String} {v : Node},
    wfElemsKeys i elems = true → (k, v) ∈ arrEntriesFrom i elems →
      keyHasDot k = false ∧ wfKeys v = true := by
  intro elems
  induction elems with
  | nil => intro i k v _ hm; simp [arrEntriesFrom] at hm
  | cons w rest ih =>
      intro i k v hwf hm
      simp only [wfElemsKeys, Bool.and_eq_true, Bool.not_eq_true'] at hwf
      obtain ⟨⟨hdot, hw⟩, hrest⟩ := hwf
      simp only [arrEntriesFrom, List.mem_cons, Prod.mk.injEq] at hm
      rcases hm with ⟨hk, hv⟩ | hm
      · subst hk; subst hv; exact ⟨hdot, hw⟩
      · exact ih hrest hm

theorem wfKeys_nodup : ∀ {n : Node}, wfKeys n = true →
    ((entriesOf n).map Prod.fst).Nodup := by
  intro n h
  cases n with
  | scalar s => simp [entriesOf]
  | obj es =>
      simp only [wfKeys, Bool.and_eq_true] at h
      exact nodupStr_nodup h.1
  | arr elems =>
      simp only [wfKeys, Bool.and_eq_true] at h
      exact nodupStr_nodup h.1

theorem wfKeys_entry : ∀ {n : Node} {k : String} {v : Node}, wfKeys n = true →
    (k, v) ∈ entriesOf n → keyHasDot k = false ∧ wfKeys v = true := by
  intro n k v h hm
  cases n with
  | scalar s => simp [entriesOf] at hm
  | obj es =>
      simp only [wfKeys, Bool.and_eq_true] at h
      exact wfEntriesKeys_entry h.2 hm
  | arr elems =>
      simp only [wfKeys, Bool.and_eq_true] at h
      exact wfElemsKeys_entry h.2 hm

theorem neEntries_entry : ∀ {es : List (String × Node)} {k : String} {v : Node},
    neEntries es = true → (k, v) ∈ es → k ≠ "" ∧ keysNonempty v = true := by
  intro es
  induction es with
  | nil => intro k v _ hm; simp at hm
  | cons e rest ih =>
      intro k v hne hm
      obtain ⟨k2, v2⟩ := e
      simp only [neEntries, Bool.and_eq_true, Bool.not_eq_true'] at hne
      obtain ⟨⟨hk2, hv2⟩, hrest⟩ := hne
      simp only [List.mem_cons, Prod.mk.injEq] at hm
      rcases hm with ⟨hk, hv⟩ | hm
      · subst hk; subst hv
        exact ⟨by simpa using hk2, hv2⟩
      · exact ih hrest hm

theorem neElems_entry : ∀ {elems : List Node} {i : Nat} {k : String} {v : Node},
    neElems i elems = true → (k, v) ∈ arrEntriesFrom i elems →
      k ≠ "" ∧ keysNonempty v = true := by
  intro elems
  induction elems with
  | nil => intro i k v _ hm; simp [arrEntriesFrom] at hm
  | cons w rest ih =>
      intro i k v hne hm
      simp only [neElems, Bool.and_eq_true, Bool.not_eq_true'] at hne
      obtain ⟨⟨hk2, hv2⟩, hrest⟩ := hne
      simp only [arrEntriesFrom, List.mem_cons, Prod.mk.injEq] at hm
      rcases hm with ⟨hk, hv⟩ | hm
      · subst hk; subst hv
        exact ⟨by simpa using hk2, hv2⟩
      · exact ih hrest hm

theorem keysNonempty_entry : ∀ {n : Node} {k : String} {v : Node},
    keysNonempty n = true → (k, v) ∈ entriesOf n → k ≠ "" ∧ keysNonempty v = true := by
  intro n k v h hm
  cases n with
  | scalar s => simp [entriesOf] at hm
  | obj es => exact neEntries_entry h hm
  | arr elems => exact neElems_entry h hm

theorem jsLookup_eq_some : ∀ {es : List (String × Node)} {k : String} {v : Node},
    ((es.map Prod.fst).Nodup) → (k, v) ∈ es → jsLookup k es = some v := by
  intro es
  induction es with
  | nil => intro k v _ hm; simp at hm
  | cons e rest ih =>
      intro k v hnd hm
      obtain ⟨k2, v2⟩ := e
      simp only [List.map_cons, List.nodup_cons] at hnd
      simp only [List.mem_cons, Prod.mk.injEq] at hm
      by_cases hk : k2 = k
      · subst hk
        simp only [jsLookup, if_pos rfl]
        rcases hm with ⟨-, hv⟩ | hm
        · simp [hv]
        · exact absurd (List.mem_map_of_mem Prod.fst hm) hnd.1
      · simp only [jsLookup, if_neg hk]
        rcases hm with ⟨hk2, -⟩ | hm
        · exact absurd hk2.symm hk
        · exact ih hnd.2 hm

theorem not_nullish_of_mem_entriesOf {k : String} {v n : Node}
    (hm : (k, v) ∈ entriesOf n) :
    jsIsNullish (some n) = false ∧ jsIsObject n = true := by
  cases n with
  | scalar s => simp [entriesOf] at hm
  | arr elems => exact ⟨rfl, rfl⟩
  | obj es => exact ⟨rfl, rfl⟩

theorem mem_pwvBlock {P : String} {v : Node} {e : String × Node}
    (h : (P, v) ∈ pwvBlock e) :
    (P = e.1 ∧ v = e.2) ∨
      (jsIsObject e.2 = true ∧ ∃ Q, (Q, v) ∈ pathsWithValues e.2 ∧ P = e.1 ++ "." ++ Q) := by
  obtain ⟨k, w⟩ := e
  simp only [pwvBlock, List.mem_cons, Prod.mk.injEq] at h
  rcases h with ⟨h1, h2⟩ | h
  · exact Or.inl ⟨h1, h2⟩
  · by_cases hw : jsIsObject w
    · rw [if_pos hw] at h
      simp only [List.mem_map, Prod.mk.injEq] at h
      obtain ⟨p, hm, hP, hv⟩ := h
      refine Or.inr ⟨hw, p.1, ?_, hP.symm⟩
      rw [← hv]
      simpa using hm
    · rw [if_neg hw] at h
      simp at h

theorem deepGet_pwv : ∀ (n : Node), wfKeys n = true →
    ∀ P v, (P, v) ∈ pathsWithValues n →
      deepGetLoop (some n) (splitDot P) = some v := by
  intro m
  induction m using node_ind with
  | step n ih =>
      intro hwf P v hm
      rw [pathsWithValues_eq_flatMap] at hm
      obtain ⟨e, he, hbm⟩ := List.mem_flatMap.mp hm
      obtain ⟨k, w⟩ := e
      obtain ⟨hdot, hwfw⟩ := wfKeys_entry hwf he
      have hnn := (not_nullish_of_mem_entriesOf he).1
      have hlookup : getProp n k = some w := jsLookup_eq_some (wfKeys_nodup hwf) he
      rcases mem_pwvBlock hbm with ⟨hP, hv⟩ | ⟨hobj, Q, hQ, hP⟩
      · subst hP; subst hv
        rw [splitDot_of_noDot hdot]
        simp [deepGetLoop, hnn, hlookup]
      · subst hP
        rw [splitDot_dotted Q hdot]
        simp only [deepGetLoop, hnn, Bool.false_eq_true, if_false]
        rw [hlookup]
        exact ih k w he hwfw Q v hQ

theorem propertyOf_pwv {n : Node} {P : String} {v : Node} (hwf : wfKeys n = true)
    (hm : (P, v) ∈ pathsWithValues n) :
    propertyOf_get n (splitDot P) = some v := by
  have hm2 := hm
  rw [pathsWithValues_eq_flatMap] at hm2
  obtain ⟨e, he, -⟩ := List.mem_flatMap.mp hm2
  obtain ⟨k, w⟩ := e
  have hnn := (not_nullish_of_mem_entriesOf he).1
  have hne : (splitDot P).isEmpty = false := by
    cases h : splitDot P with
    | nil => exact absurd h (splitDot_ne_nil P)
    | cons a l => rfl
  simp only [propertyOf_get, hnn, Bool.false_eq_true, if_false, hne]
  exact deepGet_pwv n hwf P v hm

theorem pwv_path_ne_empty {n : Node} {P : String} {v : Node}
    (hne : keysNonempty n = true) (hm : (P, v) ∈ pathsWithValues n) : P ≠ "" := by
  rw [pathsWithValues_eq_flatMap] at hm
  obtain ⟨e, he, hbm⟩ := List.mem_flatMap.mp hm
  obtain ⟨k, w⟩ := e
  rcases mem_pwvBlock hbm with ⟨hP, -⟩ | ⟨-, Q, -, hP⟩
  · subst hP
    exact (keysNonempty_entry hne he).1
  · subst hP
    intro h0
    have hmem : '.' ∈ (k ++ "." ++ Q).data := by
      rw [dotData]
      exact List.mem_append_right _ (List.mem_cons_self _ _)
    rw [h0] at hmem
    simp at hmem

theorem suffixMatch_some {keys : List String} {q : String} {m : MatchKeys}
    (h : suffixMatch keys q = some m) :
    m.keys = keys.filter (fun key => jsEndsWith key q) ∧ m.count = m.keys.length ∧
      m.keys.length ≠ 0 := by
  simp only [suffixMatch] at h
  split at h
  · exact absurd h (by simp)
  · next hne => cases h; exact ⟨rfl, rfl, hne⟩

theorem prefixMatch_some {keys : List String} {q : String} {m : MatchKeys}
    (h : prefixMatch keys q = some m) :
    m.keys = keys.filter (fun key => jsStartsWith key q) ∧ m.count = m.keys.length ∧
      m.keys.length ≠ 0 := by
  simp only [prefixMatch] at h
  split at h
  · exact absurd h (by simp)
  · next hne => cases h; exact ⟨rfl, rfl, hne⟩

/-- C2: for every non-empty query, tree and index the resolver's tier
priority is strict: an exact hit fixes the result to Exact, the suffix tier
decides the result only when the exact tier found nothing, the prefix tier
only when the suffix tier also found nothing, and NoMatch is returned
precisely when all three tiers found nothing. -/
theorem claim_C2 (tree : Node) (keys : List String) (q : String) (hq : q ≠ "") :
    (∀ e, exactMatch tree (splitDot q) = some e →
        searchResult tree keys q = some (.Exact e.path e.value)) ∧
    (∀ s, exactMatch tree (splitDot q) = none → suffixMatch keys q = some s →
        searchResult tree keys q = some (.SuffixMatch s.count s.keys)) ∧
    (∀ p, exactMatch tree (splitDot q) = none → suffixMatch keys q = none →
        prefixMatch keys q = some p →
        searchResult tree keys q = some (.PrefixMatch p.count p.keys)) ∧
    (searchResult tree keys q = some .NoMatch ↔
        exactMatch tree (splitDot q) = none ∧ suffixMatch keys q = none ∧
          prefixMatch keys q = none) := by
  refine ⟨?_, ?_, ?_, ?_⟩
  · intro e he
    simp [searchResult, hq, he]
  · intro s he hs
    simp [searchResult, hq, he, hs]
  · intro p he hs hp
    simp [searchResult, hq, he, hs, hp]
  · constructor
    · intro h
      cases he : exactMatch tree (splitDot q) with
      | some e => simp [searchResult, hq, he] at h
      | none =>
          cases hs : suffixMatch keys q with
          | some s => simp [searchResult, hq, he, hs] at h
          | none =>
              cases hp : prefixMatch keys q with
              | some p => simp [searchResult, hq, he, hs, hp] at h
              | none => exact ⟨rfl, rfl, rfl⟩
    · rintro ⟨he, hs, hp⟩
      simp [searchResult, hq, he, hs, hp]

theorem claim_C2_witness :
    searchResult parsedDefaultYaml (getDeepKeys parsedDefaultYaml) "zzz" =
      some .NoMatch :=
  ((claim_C2 parsedDefaultYaml (getDeepKeys parsedDefaultYaml) "zzz"
      (by decide)).2.2.2).mpr ⟨by rfl, by rfl, by rfl⟩

/-- C7: when the input text is non-empty and the parser fails on it, the
update leaves the document tree and the key index unchanged, records a
diagnostic, and (being a total function) lets no exception escape. -/
theorem claim_C7 (parse : String → Except String Node) (input : String)
    (st : ToolState) (e : String) (hne : input ≠ "") (herr : parse input = .error e) :
    (updateYaml parse input st).parsedYaml = st.parsedYaml ∧
    (updateYaml parse input st).keys = st.keys ∧
    (updateYaml parse input st).errorLog = st.errorLog ++ ["Failed to parse YAML: " ++ e] := by
  simp [updateYaml, hne, herr]

theorem claim_C7_witness :
    (updateYaml (fun _ => .error "bad") "x" ⟨parsedDefaultYaml, [], []⟩).parsedYaml =
        parsedDefaultYaml ∧
    (updateYaml (fun _ => .error "bad") "x" ⟨parsedDefaultYaml, [], []⟩).keys = [] ∧
    (updateYaml (fun _ => .error "bad") "x" ⟨parsedDefaultYaml, [], []⟩).errorLog =
        [] ++ ["Failed to parse YAML: " ++ "bad"] :=
  claim_C7 (fun _ => .error "bad") "x" ⟨parsedDefaultYaml, [], []⟩ "bad" (by decide) rfl

/-- C9: an empty document input short-circuits before any parse: whatever
the parser would do, the state (tree, key index and diagnostics alike) is
returned untouched. -/
theorem claim_C9 (parse : String → Except String Node) (st : ToolState) :
    updateYaml parse "" st = st := by
  simp [updateYaml]

/-- C8: diffing any string against itself short-circuits to the
distinguished match message, for every diff backend and also for the empty
string; and that message differs from the rendering of an empty segment
list and from the rendering of the single all-unchanged segment a trivial
diff of a string with itself would produce. -/
theorem claim_C8 (diffChars : String → String → List DiffSeg) (a : String) :
    renderComparison diffChars a a = matchMessage ∧
    String.join (([] : List DiffSeg).map renderSeg) ≠ matchMessage ∧
    String.join ([DiffSeg.mk false false a].map renderSeg) ≠ matchMessage := by
  refine ⟨by simp [renderComparison], by decide, ?_⟩
  intro h
  have hd := congrArg String.data h
  simp only [List.map_cons, List.map_nil, renderSeg, String.join, List.foldl_cons,
    List.foldl_nil, if_neg (by decide : ¬(false = true))] at hd
  have h5 := congrArg (fun l => l[5]?) hd
  simp [String.data_append, matchMessage] at h5

/-- C10: every SuffixMatch or PrefixMatch the resolver returns is coherent:
its count equals the length of its key list, the count is at least one, and
the key list is exactly the filter of the key index (in index order) by the
ends-with, respectively starts-with, test against the query. -/
theorem claim_C10 (tree : Node) (keys : List String) (q : String) :
    (∀ c ks, searchResult tree keys q = some (.SuffixMatch c ks) →
        c = ks.length ∧ 1 ≤ c ∧ ks = keys.filter (fun key => jsEndsWith key q)) ∧
    (∀ c ks, searchResult tree keys q = some (.PrefixMatch c ks) →
        c = ks.length ∧ 1 ≤ c ∧ ks = keys.filter (fun key => jsStartsWith key q)) := by
  constructor
  · intro c ks h
    by_cases hq : q = ""
    · simp [searchResult, hq] at h
    cases he : exactMatch tree (splitDot q) with
    | some e => simp [searchResult, hq, he] at h
    | none =>
        cases hs : suffixMatch keys q with
        | some s =>
            simp only [searchResult, if_neg hq, he, hs] at h
            obtain ⟨h1, h2⟩ : s.count = c ∧ s.keys = ks := by
              cases h; exact ⟨rfl, rfl⟩
            obtain ⟨hk, hc, hne⟩ := suffixMatch_some hs
            subst h1 h2
            refine ⟨by rw [hc, hk], ?_, hk⟩
            rw [hc]
            omega
        | none =>
            cases hp : prefixMatch keys q with
            | some p => simp [searchResult, hq, he, hs, hp] at h
            | none => simp [searchResult, hq, he, hs, hp] at h
  · intro c ks h
    by_cases hq : q = ""
    · simp [searchResult, hq] at h
    cases he : exactMatch tree (splitDot q) with
    | some e => simp [searchResult, hq, he] at h
    | none =>
        cases hs : suffixMatch keys q with
        | some s => simp [searchResult, hq, he, hs] at h
        | none =>
            cases hp : prefixMatch keys q with
            | some p =>
                simp only [searchResult, if_neg hq, he, hs, hp] at h
                obtain ⟨h1, h2⟩ : p.count = c ∧ p.keys = ks := by
                  cases h; exact ⟨rfl, rfl⟩
                obtain ⟨hk, hc, hne⟩ := prefixMatch_some hp
                subst h1 h2
                refine ⟨by rw [hc, hk], ?_, hk⟩
                rw [hc]
                omega
            | none => simp [searchResult, hq, he, hs, hp] at h

theorem claim_C10_witness :
    (1 = (["hello.from.your.favourite.yaml.tool"] : List String).length ∧ 1 ≤ 1 ∧
      (["hello.from.your.favourite.yaml.tool"] : List String) =
        (getDeepKeys parsedDefaultYaml).filter (fun key => jsEndsWith key "tool")) :=
  (claim_C10 parsedDefaultYaml (getDeepKeys parsedDefaultYaml) "tool").1 1
    ["hello.from.your.favourite.yaml.tool"] (by rfl)

/-- C3 fails on the code: the template passes searchResult.path, not the
found value's serialization, to renderComparison.  Concretely, for the
document with the single entry hello: 7, query "hello" and comparison
string "hello", the code renders the congratulation markup (the path equals
the comparison) while a diff computed between the serialized value "7" and
the comparison, as the specification describes, renders removed/added
spans; the two disagree for the concrete diff backend below. -/
theorem claim_C3_counterexample :
    renderedComparisonHtml (fun a b => [⟨false, true, a⟩, ⟨true, false, b⟩])
        (.obj [("hello", .scalar (.num 7))]) ["hello"] "hello" "hello" ≠
      specComparisonHtml (fun a b => [⟨false, true, a⟩, ⟨true, false, b⟩])
        (.obj [("hello", .scalar (.num 7))]) ["hello"] "hello" "hello" := by
  decide

/-- C3 amended: whenever the search result is Exact and a comparison string
is supplied, the rendered character diff is computed between the found PATH
as the first argument and the comparison string as the second; in
particular a comparison equal to the path renders the match message even
when the serialized value differs from it. -/
theorem claim_C3_amended (diffChars : String → String → List DiffSeg)
    (tree : Node) (keys : List String) (q c p v : String)
    (h : searchResult tree keys q = some (.Exact p v)) :
    renderedComparisonHtml diffChars tree keys q c = some (renderComparison diffChars p c) ∧
    (c = p → renderedComparisonHtml diffChars tree keys q c = some matchMessage) := by
  constructor
  · simp [renderedComparisonHtml, h]
  · intro hc
    subst hc
    simp [renderedComparisonHtml, h, renderComparison]

theorem claim_C3_amended_witness :
    renderedComparisonHtml (fun _ _ => []) (.obj [("a", .scalar (.num 7))]) ["a"] "a" "zz" =
      some (renderComparison (fun _ _ => []) "a" "zz") :=
  (claim_C3_amended (fun _ _ => []) (.obj [("a", .scalar (.num 7))]) ["a"] "a" "zz" "a" "7"
    (by rfl)).1

/-- C4 fails on the code: on the default sample document the query "hello"
already hits the exact tier, because the nested mapping stored under hello
is truthy, so the result is Exact with path "hello" and the pretty-printed
mapping as value -- not the PrefixMatch with the six nested paths the claim
asserts. -/
theorem claim_C4_counterexample :
    searchResult parsedDefaultYaml (getDeepKeys parsedDefaultYaml) "hello" =
        some (.Exact "hello"
          "\x7b\n  \"from\": \x7b\n    \"your\": \x7b\n      \"favourite\": \x7b\n        \"yaml\": \x7b\n          \"tool\": \"👋\"\n        \x7d\n      \x7d\n    \x7d\n  \x7d\n\x7d") ∧
    searchResult parsedDefaultYaml (getDeepKeys parsedDefaultYaml) "hello" ≠
        some (.PrefixMatch 6 ["hello", "hello.from", "hello.from.your",
          "hello.from.your.favourite", "hello.from.your.favourite.yaml",
          "hello.from.your.favourite.yaml.tool"]) := by
  constructor
  · rfl
  · decide

/-- C4 amended: on the default sample document the query "hello" resolves
in the exact tier to Exact with path "hello" and the two-space
pretty-printed nested mapping as value; the prefix tier, had it been
consulted, would indeed have found the six nested paths beginning with
"hello", but the truthy exact hit preempts it. -/
theorem claim_C4 :
    searchResult parsedDefaultYaml (getDeepKeys parsedDefaultYaml) "hello" =
        some (.Exact "hello"
          "\x7b\n  \"from\": \x7b\n    \"your\": \x7b\n      \"favourite\": \x7b\n        \"yaml\": \x7b\n          \"tool\": \"👋\"\n        \x7d\n      \x7d\n    \x7d\n  \x7d\n\x7d") ∧
    prefixMatch (getDeepKeys parsedDefaultYaml) "hello" =
        some ⟨6, ["hello", "hello.from", "hello.from.your",
          "hello.from.your.favourite", "hello.from.your.favourite.yaml",
          "hello.from.your.favourite.yaml.tool"]⟩ := by
  constructor
  · rfl
  · rfl

/-- C6 fails on the code: sequences are not leaves.  A JavaScript array
passes the typeof-object test, so getDeepKeys descends into it and emits
the numeric element index as a sub-path: for a single mapping key "a"
holding a one-element sequence the indexer output is ["a", "a.0"], where
"a.0" is exactly the path "a" extended by the element index "0". -/
theorem claim_C6_counterexample :
    getDeepKeys (.obj [("a", .arr [.scalar (.num 7)])]) = ["a", "a.0"] ∧
    ("a.0" : String) = "a" ++ "." ++ "0" ∧
    getProp (.obj [("a", .arr [.scalar (.num 7)])]) "a" = some (.arr [.scalar (.num 7)]) := by
  refine ⟨rfl, rfl, rfl⟩

/-- C6 amended: the indexer treats non-object values (strings, numbers,
booleans) and null as leaves -- their path is emitted and nothing beneath
it -- but it does descend into sequences exactly as into mappings, emitting
a decimal element-index sub-path for every element. -/
theorem claim_C6 :
    (∀ k v rest, jsIsObject v = false →
        getDeepKeys (.obj ((k, v) :: rest)) = k :: getDeepKeys (.obj rest)) ∧
    (∀ k rest,
        getDeepKeys (.obj ((k, .scalar .null) :: rest)) = k :: getDeepKeys (.obj rest)) ∧
    (∀ k elems rest,
        getDeepKeys (.obj ((k, .arr elems) :: rest)) =
          (k :: (getDeepKeys (.arr elems)).map (fun s => k ++ "." ++ s)) ++
            getDeepKeys (.obj rest)) ∧
    (∀ elems i, i < elems.length → Nat.repr i ∈ getDeepKeys (.arr elems)) := by
  refine ⟨?_, ?_, ?_, ?_⟩
  · intro k v rest hv
    simp [getDeepKeys, deepKeysOfEntries, hv]
  · intro k rest
    simp [getDeepKeys, deepKeysOfEntries, jsIsObject, pathsWithValues]
  · intro k elems rest
    simp [getDeepKeys, deepKeysOfEntries, jsIsObject]
  · intro elems i hi
    have key : ∀ (elems : List Node) (j i : Nat), i < elems.length →
        Nat.repr (j + i) ∈ deepKeysOfElems j elems := by
      intro es
      induction es with
      | nil => intro j i hi; simp at hi
      | cons v rest ih =>
          intro j i hi
          cases i with
          | zero => simp [deepKeysOfElems]
          | succ i' =>
              have := ih (j + 1) i' (by simpa using hi)
              simp only [deepKeysOfElems, List.mem_append, List.mem_cons]
              have harith : j + (i' + 1) = j + 1 + i' := by omega
              rw [harith]
              exact Or.inr this
    simpa using key elems 0 i hi

theorem claim_C6_witness :
    (getDeepKeys (.obj [("a", .scalar (.num 3))]) = "a" :: getDeepKeys (.obj [])) ∧
    Nat.repr 0 ∈ getDeepKeys (.arr [.scalar (.num 7)]) :=
  ⟨claim_C6.1 "a" (.scalar (.num 3)) [] rfl, claim_C6.2.2.2 [.scalar (.num 7)] 0 (by decide)⟩

/-- C1 fails on the code as universally stated: for the document with the
single key "a.b" (a key containing a dot) holding the truthy value 5, the
indexer lists the path "a.b" with stored value 5, yet resolving "a.b"
splits the query at the dot, looks up the nonexistent key "a", finds
nothing, and falls through to the suffix tier -- the result is SuffixMatch,
not Exact. -/
theorem claim_C1_counterexample :
    ("a.b", Node.scalar (.num 5)) ∈ pathsWithValues (.obj [("a.b", .scalar (.num 5))]) ∧
    jsTruthy (some (.scalar (.num 5))) = true ∧
    searchResult (.obj [("a.b", .scalar (.num 5))])
        (getDeepKeys (.obj [("a.b", .scalar (.num 5))])) "a.b" =
      some (.SuffixMatch 1 ["a.b"]) := by
  refine ⟨?_, rfl, rfl⟩
  exact List.mem_singleton.mpr rfl

/-- C1 amended: restricted to well-formed documents -- ones whose enumerable
keys are duplicate-free, dot-free and nonempty, as every document produced
by parsing YAML into JavaScript objects with ordinary keys is -- every path
P the indexer lists with stored value v resolves as the claim says: when v
is truthy the result is Exact carrying P (and the pretty-printed v); when v
is falsy (empty string, zero, false, null) the exact tier reports
not-found and the result is the fall-through of the suffix, then prefix
tiers, then NoMatch. -/
theorem claim_C1 (D : Node) (hwf : wfKeys D = true) (hne : keysNonempty D = true)
    (P : String) (v : Node) (hmem : (P, v) ∈ pathsWithValues D) :
    (jsTruthy (some v) = true →
        searchResult D (getDeepKeys D) P = some (.Exact P (jsonStringify v 0))) ∧
    (jsTruthy (some v) = false →
        exactMatch D (splitDot P) = none ∧
        searchResult D (getDeepKeys D) P =
          some (fallbackResult (getDeepKeys D) P)) := by
  have hget := propertyOf_pwv hwf hmem
  have hPne := pwv_path_ne_empty hne hmem
  constructor
  · intro htr
    have hex : exactMatch D (splitDot P) =
        some ⟨joinDot (splitDot P), jsonStringify v 0⟩ := by
      simp [exactMatch, hget, htr]
    rw [joinDot_splitDot] at hex
    simp [searchResult, hPne, hex]
  · intro hf
    have hex : exactMatch D (splitDot P) = none := by
      simp [exactMatch, hget, hf]
    refine ⟨hex, ?_⟩
    simp only [searchResult, if_neg hPne, hex, fallbackResult]
    cases hs : suffixMatch (getDeepKeys D) P with
    | some s => rfl
    | none =>
        cases hp : prefixMatch (getDeepKeys D) P with
        | some p => rfl
        | none => rfl

theorem claim_C1_witness :
    searchResult parsedDefaultYaml (getDeepKeys parsedDefaultYaml) "hello" =
      some (.Exact "hello"
        (jsonStringify (.obj [("from", .obj [("your", .obj [("favourite",
          .obj [("yaml", .obj [("tool", .scalar (.str "👋"))])])])])]) 0)) :=
  (claim_C1 parsedDefaultYaml rfl rfl "hello"
      (.obj [("from", .obj [("your", .obj [("favourite",
        .obj [("yaml", .obj [("tool", .scalar (.str "👋"))])])])])])
      (List.mem_cons_self _ _)).1 rfl

theorem precedesIn_append (pre post : List String) {l : List String} {a b : String}
    (h : precedesIn l a b) : precedesIn (pre ++ l ++ post) a b := by
  obtain ⟨l₁, l₂, hl, ha, hb⟩ := h
  refine ⟨pre ++ l₁, l₂ ++ post, ?_, List.mem_append_right _ ha, List.mem_append_left _ hb⟩
  rw [hl]
  simp [List.append_assoc]

theorem precedesIn_map (f : String → String) {l : List String} {a b : String}
    (h : precedesIn l a b) : precedesIn (l.map f) (f a) (f b) := by
  obtain ⟨l₁, l₂, hl, ha, hb⟩ := h
  exact ⟨l₁.map f, l₂.map f, by rw [hl, List.map_append],
    List.mem_map_of_mem f ha, List.mem_map_of_mem f hb⟩

theorem precedesIn_head {l : List String} {a b : String} (hb : b ∈ l) :
    precedesIn (a :: l) a b :=
  ⟨[a], l, rfl, List.mem_singleton.mpr rfl, hb⟩

theorem precedesIn_mem {l : List String} {a b : String} (h : precedesIn l a b) :
    a ∈ l ∧ b ∈ l := by
  obtain ⟨l₁, l₂, hl, ha, hb⟩ := h
  rw [hl]
  exact ⟨List.mem_append_left _ ha, List.mem_append_right _ hb⟩

theorem self_ne_dotted (k s : String) : k ≠ k ++ "." ++ s := by
  intro h
  have h2 := congrArg String.data h
  rw [dotData] at h2
  have h3 := congrArg List.length h2
  simp only [List.length_append, List.length_cons] at h3
  omega

theorem dotted_hasDot (k s : String) : keyHasDot (k ++ "." ++ s) = true := by
  show ((k ++ "." ++ s).data).contains '.' = true
  rw [dotData]
  exact List.elem_iff.mpr (List.mem_append_right _ (List.mem_cons_self _ _))

theorem dotted_key_inj_chars : ∀ {u u' a b : List Char}, '.' ∉ u → '.' ∉ u' →
    u ++ '.' :: a = u' ++ '.' :: b → u = u' ∧ a = b := by
  intro u
  induction u with
  | nil =>
      intro u' a b _ hu' h
      cases u' with
      | nil => simpa using h
      | cons c ut =>
          simp only [List.nil_append, List.cons_append, List.cons.injEq] at h
          exact absurd (by rw [← h.1]; exact List.mem_cons_self _ _) hu'
  | cons c ut ih =>
      intro u' a b hu hu' h
      cases u' with
      | nil =>
          simp only [List.cons_append, List.nil_append, List.cons.injEq] at h
          exact absurd (by rw [h.1]; exact List.mem_cons_self _ _) hu
      | cons c2 ut2 =>
          simp only [List.cons_append, List.cons.injEq] at h
          obtain ⟨hc, ht⟩ := h
          have hrec := ih (fun hm => hu (List.mem_cons_of_mem _ hm))
            (fun hm => hu' (List.mem_cons_of_mem _ hm)) ht
          exact ⟨by rw [hc, hrec.1], hrec.2⟩

theorem dotted_inj {k k2 s s2 : String} (hk : keyHasDot k = false)
    (hk2 : keyHasDot k2 = false) (h : k ++ "." ++ s = k2 ++ "." ++ s2) :
    k = k2 ∧ s = s2 := by
  have hd := congrArg String.data h
  rw [dotData, dotData] at hd
  obtain ⟨h3, h4⟩ :=
    dotted_key_inj_chars (keyHasDot_false_iff.mp hk) (keyHasDot_false_iff.mp hk2) hd
  exact ⟨String.ext h3, String.ext h4⟩

theorem dotted_right_inj (k : String) :
    Function.Injective (fun s => k ++ "." ++ s) := by
  intro a b h
  have hd := congrArg String.data h
  rw [dotData, dotData] at hd
  have := List.append_cancel_left hd
  exact String.ext (by injection this)

theorem mem_keyBlock {P : String} {e : String × Node} (h : P ∈ keyBlock e) :
    P = e.1 ∨ (jsIsObject e.2 = true ∧ ∃ Q, Q ∈ getDeepKeys e.2 ∧ P = e.1 ++ "." ++ Q) := by
  obtain ⟨k, v⟩ := e
  simp only [keyBlock, List.mem_cons] at h
  rcases h with h | h
  · exact Or.inl h
  · by_cases hv : jsIsObject v
    · rw [if_pos hv] at h
      simp only [List.mem_map] at h
      obtain ⟨Q, hQ, hP⟩ := h
      exact Or.inr ⟨hv, Q, hQ, hP.symm⟩
    · rw [if_neg hv] at h
      simp at h

theorem keyBlock_nodup {e : String × Node} (hdot : keyHasDot e.1 = false)
    (hsub : (getDeepKeys e.2).Nodup) : (keyBlock e).Nodup := by
  obtain ⟨k, v⟩ := e
  simp only [keyBlock]
  refine List.nodup_cons.mpr ⟨?_, ?_⟩
  · intro hm
    by_cases hv : jsIsObject v
    · rw [if_pos hv] at hm
      simp only [List.mem_map] at hm
      obtain ⟨s, -, hs⟩ := hm
      exact self_ne_dotted k s hs.symm
    · rw [if_neg hv] at hm
      simp at hm
  · by_cases hv : jsIsObject v
    · rw [if_pos hv]
      exact hsub.map (dotted_right_inj k)
    · simp [hv]

theorem getDeepKeys_nodup : ∀ (n : Node), wfKeys n = true → (getDeepKeys n).Nodup := by
  intro m
  induction m using node_ind with
  | step n ih =>
      intro hwf
      rw [getDeepKeys_eq_flatMap]
      refine List.nodup_flatMap.mpr ⟨?_, ?_⟩
      · intro e he
        have he2 : (e.1, e.2) ∈ entriesOf n := by simpa using he
        exact keyBlock_nodup (wfKeys_entry hwf he2).1
          (ih e.1 e.2 he2 (wfKeys_entry hwf he2).2)
      · have hnd := wfKeys_nodup hwf
        have hpair : (entriesOf n).Pairwise (fun e e2 => e.1 ≠ e2.1) :=
          List.pairwise_map.mp hnd
        refine hpair.imp_of_mem ?_
        intro e e2 he he2 hne
        have hd1 : keyHasDot e.1 = false :=
          (wfKeys_entry hwf (show (e.1, e.2) ∈ entriesOf n by simpa using he)).1
        have hd2 : keyHasDot e2.1 = false :=
          (wfKeys_entry hwf (show (e2.1, e2.2) ∈ entriesOf n by simpa using he2)).1
        intro x hx hx2
        rcases mem_keyBlock hx with h1 | ⟨-, Q, -, h1⟩ <;>
          rcases mem_keyBlock hx2 with h2 | ⟨-, Q2, -, h2⟩
        · exact hne (h1 ▸ h2 ▸ rfl)
        · have hxdot : keyHasDot x = false := h1 ▸ hd1
          rw [h2, dotted_hasDot] at hxdot
          cases hxdot
        · have hxdot : keyHasDot x = false := h2 ▸ hd2
          rw [h1, dotted_hasDot] at hxdot
          cases hxdot
        · exact hne (dotted_inj hd1 hd2 (h1.symm.trans h2)).1

theorem mappingPathsOfEntries_eq_flatMap (es : List (String × Node)) :
    mappingPathsOfEntries es = es.flatMap mpBlock := by
  induction es with
  | nil => rfl
  | cons e rest ih =>
      obtain ⟨k, v⟩ := e
      simp [mappingPathsOfEntries, mpBlock, ih]

theorem mappingPaths_subset : ∀ (n : Node), ∀ P ∈ mappingPaths n, P ∈ getDeepKeys n := by
  intro m
  induction m using node_ind with
  | step n ih =>
      intro P hP
      cases n with
      | scalar s => simp [mappingPaths] at hP
      | arr elems => simp [mappingPaths] at hP
      | obj es =>
          rw [getDeepKeys_eq_flatMap]
          simp only [mappingPaths, mappingPathsOfEntries_eq_flatMap] at hP
          obtain ⟨e, he, hbm⟩ := List.mem_flatMap.mp hP
          obtain ⟨k, v⟩ := e
          refine List.mem_flatMap.mpr ⟨(k, v), he, ?_⟩
          simp only [mpBlock, List.mem_cons] at hbm
          rcases hbm with h1 | h1
          · rw [h1]
            exact List.mem_cons_self _ _
          · simp only [List.mem_map] at h1
            obtain ⟨Q, hQ, hP2⟩ := h1
            cases v with
            | scalar s => simp [mappingPaths] at hQ
            | arr elems2 => simp [mappingPaths] at hQ
            | obj es2 =>
                simp only [keyBlock, jsIsObject, if_pos, List.mem_cons]
                refine Or.inr (List.mem_map.mpr ⟨Q, ?_, hP2⟩)
                exact ih k (.obj es2) (by simpa [entriesOf] using he) Q hQ

theorem pathDepth_noDot {k : String} (h : keyHasDot k = false) : pathDepth k = 1 := by
  simp [pathDepth, splitDot_of_noDot h]

theorem pathDepth_pos (P : String) : 1 ≤ pathDepth P := by
  unfold pathDepth
  cases h : splitDot P with
  | nil => exact absurd h (splitDot_ne_nil P)
  | cons a l => simp

theorem parentPath_dotted_base {k q : String} (hk : keyHasDot k = false)
    (hq : pathDepth q = 1) : parentPath (k ++ "." ++ q) = k := by
  unfold parentPath
  rw [splitDot_dotted q hk]
  unfold pathDepth at hq
  cases hsq : splitDot q with
  | nil => exact absurd hsq (splitDot_ne_nil q)
  | cons q0 qs =>
      cases qs with
      | nil => simp [List.dropLast, joinDot_singleton]
      | cons q1 qs2 =>
          rw [hsq] at hq
          simp at hq

theorem parentPath_dotted_step {k q : String} (hk : keyHasDot k = false)
    (hq : 2 ≤ pathDepth q) : parentPath (k ++ "." ++ q) = k ++ "." ++ parentPath q := by
  unfold parentPath
  rw [splitDot_dotted q hk]
  unfold pathDepth at hq
  cases hsq : splitDot q with
  | nil => exact absurd hsq (splitDot_ne_nil q)
  | cons q0 qs =>
      cases qs with
      | nil =>
          rw [hsq] at hq
          simp at hq
      | cons q1 qs2 =>
          rw [List.dropLast_cons₂, List.dropLast_cons₂]
          rw [joinDot_cons_cons]

theorem ancestor_precedes : ∀ (n : Node), wfKeys n = true → ∀ P ∈ getDeepKeys n,
    2 ≤ pathDepth P → precedesIn (getDeepKeys n) (parentPath P) P := by
  intro m
  induction m using node_ind with
  | step n ih =>
      intro hwf P hP hd
      rw [getDeepKeys_eq_flatMap] at hP ⊢
      obtain ⟨e, he, hbm⟩ := List.mem_flatMap.mp hP
      obtain ⟨k, v⟩ := e
      obtain ⟨hdot, hwfv⟩ := wfKeys_entry hwf he
      have hblock : precedesIn (keyBlock (k, v)) (parentPath P) P := by
        rcases mem_keyBlock hbm with h1 | ⟨hobj, Q, hQ, h1⟩
        · rw [h1] at hd
          rw [pathDepth_noDot hdot] at hd
          omega
        · subst h1
          by_cases hq1 : pathDepth Q = 1
          · rw [parentPath_dotted_base hdot hq1]
            simp only [keyBlock, if_pos hobj]
            exact precedesIn_head (List.mem_map_of_mem _ hQ)
          · have hq2 : 2 ≤ pathDepth Q := by
              have := pathDepth_pos Q
              omega
            rw [parentPath_dotted_step hdot hq2]
            have hmap := precedesIn_map (fun s => k ++ "." ++ s)
              (ih k v he hwfv Q hQ hq2)
            simp only [keyBlock, if_pos hobj]
            have hext := precedesIn_append [k] [] hmap
            simpa using hext
      obtain ⟨l₁, l₂, hes⟩ := List.append_of_mem he
      have hfinal := precedesIn_append (l₁.flatMap keyBlock) (l₂.flatMap keyBlock) hblock
      rw [hes, List.flatMap_append, List.flatMap_cons]
      simpa [List.append_assoc] using hfinal

/-- C5 fails on the code as universally stated: for the document with the
single key "a.b" (a key containing a dot) the indexer lists exactly the
path "a.b", which has two dot-segments, yet its one-segment-shorter
ancestor "a" appears nowhere in the output. -/
theorem claim_C5_counterexample :
    getDeepKeys (.obj [("a.b", .scalar (.num 5))]) = ["a.b"] ∧
    pathDepth "a.b" = 2 ∧
    parentPath "a.b" = "a" ∧
    ("a" : String) ∉ getDeepKeys (.obj [("a.b", .scalar (.num 5))]) := by
  refine ⟨rfl, rfl, rfl, by decide⟩

/-- C5 amended: restricted to well-formed documents (duplicate-free,
dot-free enumerable keys, as JavaScript objects with ordinary keys always
are), the indexer lists its paths without duplicates, every
mapping-reachable dotted path is among them (hence listed exactly once),
and every listed path of two or more segments has its one-segment-shorter
ancestor also listed, strictly earlier in the output sequence.  (The
well-formed indexer also lists paths through sequences; the claim's
mapping-reachable paths are a subset.) -/
theorem claim_C5 (D : Node) (hwf : wfKeys D = true) :
    (getDeepKeys D).Nodup ∧
    (∀ P ∈ mappingPaths D, P ∈ getDeepKeys D) ∧
    (∀ P ∈ getDeepKeys D, 2 ≤ pathDepth P →
        parentPath P ∈ getDeepKeys D ∧ precedesIn (getDeepKeys D) (parentPath P) P) := by
  refine ⟨getDeepKeys_nodup D hwf, mappingPaths_subset D, ?_⟩
  intro P hP hd
  have h := ancestor_precedes D hwf P hP hd
  exact ⟨(precedesIn_mem h).1, h⟩

theorem claim_C5_witness :
    (getDeepKeys parsedDefaultYaml).Nodup ∧
    parentPath "hello.from" ∈ getDeepKeys parsedDefaultYaml :=
  ⟨(claim_C5 parsedDefaultYaml rfl).1,
    ((claim_C5 parsedDefaultYaml rfl).2.2 "hello.from" (by decide) (by decide)).1⟩

end YamlPathFinder
